import Mathlib

/-!
Verification of the passgen/onepass password generator.

The schema combinatorics engine (the `randexp` module: AST, cardinality
calculator, index decoder) is modelled from the specification, since only
`main.rs` of the repository is available.  The driver (`main.rs`) is embedded
directly from the source.
-/

namespace Passgen

/-- Modelled from the spec: the case-variant tag of a word-class reference
(§3 `WordClass`): a Word-Resource entry rendered lowercase or capitalized. -/
inductive CaseTag
  | lower
  | capital
deriving DecidableEq

/-- Modelled from the spec: the schema AST (§3).  Ordered sequences of
children (`Concat`, `Alternate`) are encoded binarily with explicit units:
`Concat [] ≙ eps`, `Concat (x :: xs) ≙ cat x (Concat xs)`, `Alternate [] ≙ nul`,
`Alternate (x :: xs) ≙ alt x (Alternate xs)`; the size/enumeration/decode
semantics of the sequence forms are the corresponding folds. -/
inductive Expr
  | lit (c : Char)
  | cls (cs : List Char) (neg : Bool)
  | word (t : CaseTag)
  | eps
  | cat (a b : Expr)
  | nul
  | alt (a b : Expr)
  | rep (e : Expr) (lo hi : Nat)
deriving DecidableEq

/-- Modelled from the spec: the "full addressable character domain" against
which a negated character class is complemented (§4.2); taken to be the 95
printable ASCII characters. -/
def charDomain : List Char := (List.range 95).map (fun i => Char.ofNat (32 + i))

/-- Modelled from the spec: the effective character set of a class
(§4.2 `CharClass`): the recorded set, or its complement in the domain. -/
def effSet (cs : List Char) (neg : Bool) : List Char :=
  if neg then charDomain.filter (fun c => ¬ cs.contains c) else cs

/-- Modelled from the spec: rendering of one word in the requested case
variant (§3 `WordClass`). -/
def render (t : CaseTag) (w : String) : String :=
  match t with
  | .lower => String.mk (w.data.map Char.toLower)
  | .capital =>
    match w.data with
    | [] => ""
    | c :: rest => String.mk (Char.toUpper c :: rest.map Char.toLower)

/-- The Word Resource: an ordered, indexable list of candidate words. -/
def Words : Type := List String

/-- `Words::from`: build the word resource from a list of words. -/
def Words.mkFrom (l : List String) : Words := l

/-- The word list as a plain list. -/
def Words.list (ws : Words) : List String := ws

/-- Modelled from the spec: the cardinality calculator `Words::size`
(§4.2): `Literal` 1; `CharClass` the effective set's size; `WordClass` the
word count; `Concat` the product; `Alternate` the sum; `Repeat e lo hi` the
sum of `size e ^ k` for `k = lo..hi`.  Cardinalities are computed in exact
(unbounded) arithmetic. -/
def Words.size (ws : Words) : Expr → Nat
  | .lit _ => 1
  | .cls cs neg => (effSet cs neg).length
  | .word _ => ws.list.length
  | .eps => 1
  | .cat a b => ws.size a * ws.size b
  | .nul => 0
  | .alt a b => ws.size a + ws.size b
  | .rep e lo hi =>
    ((List.range (hi + 1 - lo)).map (fun t => ws.size e ^ (lo + t))).sum

/-- `k`-fold concatenation of an enumerated language with itself, earlier
copies more significant (the brute-force language of `Repeat` at a fixed
repetition count `k`). -/
def enumTimes (l : List String) : Nat → List String
  | 0 => [""]
  | k + 1 => l.flatMap (fun h => (enumTimes l k).map (h ++ ·))

/-- Brute-force enumeration of the language of a schema node, in the
canonical order of §4.3: class/word elements in recorded order, `cat` with
the first child most significant, `alt` first branch first, `rep` by
increasing repetition count. -/
def Words.enum (ws : Words) : Expr → List String
  | .lit c => [String.mk [c]]
  | .cls cs neg => (effSet cs neg).map (fun c => String.mk [c])
  | .word t => ws.list.map (render t)
  | .eps => [""]
  | .cat a b => (ws.enum a).flatMap (fun h => (ws.enum b).map (h ++ ·))
  | .nul => []
  | .alt a b => ws.enum a ++ ws.enum b
  | .rep e lo hi =>
    (List.range (hi + 1 - lo)).flatMap (fun t => enumTimes (ws.enum e) (lo + t))

/-- Branch selection for alternation-like ranges (§4.3 `Alternate`):
given the list of branch sizes, locate the branch containing the index and
the offset within it. -/
def pick : List Nat → Nat → Nat × Nat
  | [], i => (0, i)
  | l :: ls, i =>
    if i < l then (0, i)
    else
      let p := pick ls (i - l)
      (p.1 + 1, p.2)

/-- Mixed-radix decoding of `k` equal radices (§4.3 `Repeat`): decode `j`
as `k` copies of a child with `s` choices each, first copy most
significant, using `d` to decode each digit. -/
def decTimes (d : Nat → String) (s : Nat) : Nat → Nat → String
  | 0, _ => ""
  | k + 1, j => d (j / s ^ k) ++ decTimes d s k (j % s ^ k)

/-- Modelled from the spec: the index decoder (§4.3), the structural
inverse of `Words.size`: classes and words select the 0-based element;
`cat` decomposes the index in mixed radix (first child most significant,
i.e. the last child varies fastest); `alt` partitions `[0, size)` into the
branches' contiguous ranges in declared order; `rep` first selects the
repetition count like an alternation over `k = lo..hi`, then decodes a
`k`-fold mixed radix.  Out-of-range indices produce junk; the bound check
is performed by `Words.gen_at`. -/
def Words.decode (ws : Words) : Expr → Nat → String
  | .lit c, _ => String.mk [c]
  | .cls cs neg, i => String.mk [(effSet cs neg).getD i 'A']
  | .word t, i => (ws.list.map (render t)).getD i ""
  | .eps, _ => ""
  | .cat a b, i => ws.decode a (i / ws.size b) ++ ws.decode b (i % ws.size b)
  | .nul, _ => ""
  | .alt a b, i => if i < ws.size a then ws.decode a i else ws.decode b (i - ws.size a)
  | .rep e lo hi, i =>
    let s := ws.size e
    let p := pick ((List.range (hi + 1 - lo)).map (fun t => s ^ (lo + t))) i
    decTimes (ws.decode e) s (lo + p.1) p.2

/-- Failure cases of the index decoder. -/
inductive GenErr
  | indexOutOfRange
deriving DecidableEq

/-- Modelled from the spec: `Words::gen_at` (§4.3 contract): for an index
within the node's cardinality, return the unique string the index maps to;
for an index out of range, fail with the internal-invariant error. -/
def Words.gen_at (ws : Words) (e : Expr) (i : Nat) : Except GenErr String :=
  if i < ws.size e then .ok (ws.decode e i) else .error .indexOutOfRange

/-- The sixteen digit characters used by decimal and hexadecimal display. -/
def digitChars : List Char :=
  ['0', '1', '2', '3', '4', '5', '6', '7', '8', '9', 'A', 'B', 'C', 'D', 'E', 'F']

/-- The character for one digit value. -/
def digChar (d : Nat) : Char := digitChars.getD d '?'

/-- The numeric value of one digit character. -/
def digVal (c : Char) : Nat := if c.toNat ≤ 57 then c.toNat - 48 else c.toNat - 55

/-- Fixed-width base-`b` rendering of `n`, most significant digit first
(`w` digits). -/
def basePad (b : Nat) : Nat → Nat → List Char
  | 0, _ => []
  | w + 1, n => digChar (n / b ^ w) :: basePad b w (n % b ^ w)

/-- Numeric value of a digit string in base `b`. -/
def baseParse (b : Nat) (l : List Char) : Nat :=
  l.foldl (fun acc c => b * acc + digVal c) 0

/-- Strip leading zero characters (Rust's `trim_start_matches('0')`). -/
def trimZeros (l : List Char) : List Char := l.dropWhile (fun c => c == '0')

/-- Model of Rust's decimal `Display` for `u32` (no leading zeros; `0`
prints `"0"`). -/
def decRepr (n : Nat) : List Char :=
  if n = 0 then ['0'] else trimZeros (basePad 10 10 n)

/-- Model of `crypto_bigint`'s hexadecimal `Display` for `U256`: 64 hex
digits, most significant first. -/
def hexDisplay256 (n : Nat) : List Char := basePad 16 64 n

/-- The code's `size.to_string().trim_start_matches('0')`. -/
def hexTrimmed (n : Nat) : List Char := trimZeros (hexDisplay256 n)

/-- The salt string built at line 263 of `main.rs`:
`format!("{0}:{1}", increment, &args.site)`. -/
def saltOf (increment : Nat) (site : String) : String :=
  String.mk (decRepr increment ++ ':' :: site.data)

/-- Bit length with explicit fuel (first argument), so that it computes by
structural recursion. -/
def bitsAux : Nat → Nat → Nat
  | 0, _ => 0
  | f + 1, n => if n = 0 then 0 else bitsAux f (n / 2) + 1

/-- Model of `crypto_bigint`'s `U256::bits`: the bit length of `n`
(`0` for `0`, otherwise `⌊log₂ n⌋ + 1`). -/
def bitsOf (n : Nat) : Nat := bitsAux n n

/-- One trial of `crypto_bigint`'s `U256::random_mod` rejection sampling,
modelled from the spec (§4.4 step 4): mask a raw 256-bit draw down to the
modulus's bit length, accept if below the modulus. -/
def acceptStep (n d : Nat) : Option Nat :=
  if d % 2 ^ bitsOf n < n then some (d % 2 ^ bitsOf n) else none

/-- The rejection-sampling loop of `U256::random_mod`, modelled from the
spec: repeat `acceptStep` on successive draws.  The loop in the library
retries indefinitely; here it carries explicit fuel. -/
def sampleMod (draw : Nat → Nat) (n : Nat) : Nat → Nat → Option Nat
  | 0, _ => none
  | fuel + 1, t =>
    match acceptStep n (draw t) with
    | some v => some v
    | none => sampleMod draw n fuel (t + 1)

/-- A site entry of the configuration (`struct Site` in `main.rs`); the
`u32` increment is modelled as a natural number below `2^32`. -/
structure Site where
  name : String
  schema : String
  increment : Nat
deriving DecidableEq

/-- The configuration after loading (`struct Config` in `main.rs`); the
alias `HashMap` is modelled as an association list. -/
structure Config where
  defaultSchema : String
  aliases : List (String × String)
  sites : List Site
deriving DecidableEq

/-- The parsed command line (`struct Args` in `main.rs`), restricted to the
fields the derivation reads. -/
structure Args where
  site : String
  schemaArg : Option String
  incArg : Option Nat
  confirm : Bool
  verbose : Bool
deriving DecidableEq

/-- `config.sites.iter().find(|&site| site.name == args.site)`
(line 233 of `main.rs`). -/
def findSite (sites : List Site) (name : String) : Option Site :=
  sites.find? (fun site => site.name == name)

/-- Schema resolution (lines 234-237 of `main.rs`): a `--schema` argument is
looked up in the alias table and otherwise used verbatim; with no argument,
the matching site entry's schema is used, else the config default. -/
def resolveSchema (argSchema : Option String) (aliases : List (String × String))
    (site : Option Site) (defaultSchema : String) : String :=
  match argSchema with
  | some schema => (aliases.lookup schema).getD schema
  | none =>
    match site with
    | some site => site.schema
    | none => defaultSchema

/-- Increment resolution (lines 238-240 of `main.rs`): a `--increment`
argument wins; otherwise the matching site entry's increment; otherwise 0. -/
def resolveIncrement (argInc : Option Nat) (site : Option Site) : Nat :=
  match argInc with
  | some i => i
  | none =>
    match site with
    | some site => site.increment
    | none => 0

/-- The schema string the run parses. -/
def runSchema (cfg : Config) (args : Args) : String :=
  resolveSchema args.schemaArg cfg.aliases (findSite cfg.sites args.site) cfg.defaultSchema

/-- The salt string the run feeds to Argon2. -/
def runSalt (cfg : Config) (args : Args) : String :=
  saltOf (resolveIncrement args.incArg (findSite cfg.sites args.site)) args.site

/-- The verbose diagnostic line (lines 244-250 of `main.rs`):
`"schema has about {size.bits()} bits of entropy (0x{size hex, leading
zeros trimmed} possible passwords)"`. -/
def verboseLine (size : Nat) : String :=
  "schema has about " ++ String.mk (decRepr (bitsOf size)) ++
    " bits of entropy (0x" ++ String.mk (hexTrimmed size) ++ " possible passwords)"

/-- Observable events of a run, in order: a diagnostic line on stderr, the
two password prompts, the Argon2 invocation (with the salt it receives),
the index accepted from the keystream, and the final write. -/
inductive Ev
  | diag (line : String)
  | promptMaster
  | promptConfirm
  | kdfRun (salt : String)
  | drawIndex (i : Nat)
  | writeOut
deriving DecidableEq

/-- The ways a run can fail. -/
inductive MainErr
  | parseError
  | secretMismatch
  | zeroModulusPanic
  | outOfEntropy
  | genError
deriving DecidableEq

/-- The outcome of a run: the events in order, the bytes written to
standard output, and the failure if any. -/
structure RunResult where
  events : List Ev
  outBytes : String
  err : Option MainErr
deriving DecidableEq

/-- The tail of `main` after the key material exists (lines 274-284 of
`main.rs`): build the keystream, wrap the cardinality in `NonZero`
(`.unwrap()` panics when it is zero), draw the index by rejection sampling,
decode, and write.  `draw key t` abstracts the `t`-th 256-bit read of the
BLAKE3 XOF keyed by `key`; `fuel` bounds the rejection loop, which the
library runs unboundedly, so exhausted fuel is a model artifact. -/
def afterKeyCore (words : Words) (expr : Expr) (key : List Nat)
    (draw : List Nat → Nat → Nat) (fuel : Nat) (isTerm : Bool) :
    List Ev × String × Option MainErr :=
  if words.size expr = 0 then ([], "", some .zeroModulusPanic)
  else
    match sampleMod (draw key) (words.size expr) fuel 0 with
    | none => ([], "", some .outOfEntropy)
    | some i =>
      match words.gen_at expr i with
      | .error _ => ([.drawIndex i], "", some .genError)
      | .ok pw =>
        ([.drawIndex i, .writeOut],
          pw ++ (if isTerm then String.mk ['\n'] else ""), none)

/-- The derivation driver, embedding lines 233-284 of `main.rs`: resolve
schema and increment, parse the schema (`parse` abstracts the `randexp`
parser), print the verbose diagnostic, prompt for the master secret (and
confirmation when requested, aborting on mismatch), build the salt, run
Argon2 (`kdf` abstracts it), then hand off to `afterKeyCore`.  Config
loading, word-file loading and prompt I/O are abstracted into the already
loaded `cfg`, `words`, `masterInput` and `confirmInput`. -/
def runMain (cfg : Config) (args : Args) (words : Words)
    (parse : String → Option Expr) (masterInput confirmInput : String)
    (kdf : String → String → List Nat) (draw : List Nat → Nat → Nat)
    (fuel : Nat) (isTerm : Bool) : RunResult :=
  match parse (runSchema cfg args) with
  | none => ⟨[], "", some .parseError⟩
  | some expr =>
    let evs0 := if args.verbose then [Ev.diag (verboseLine (words.size expr))] else []
    let evs1 := evs0 ++ [Ev.promptMaster]
    let proceed : List Ev → RunResult := fun evs =>
      let salt := runSalt cfg args
      let key := kdf masterInput salt
      let c := afterKeyCore words expr key draw fuel isTerm
      ⟨evs ++ [Ev.kdfRun salt] ++ c.1, c.2.1, c.2.2⟩
    if args.confirm then
      let evs2 := evs1 ++ [Ev.promptConfirm]
      if confirmInput ≠ masterInput then ⟨evs2, "", some .secretMismatch⟩
      else proceed evs2
    else proceed evs1

/-- The events a run emits before key derivation, when the confirmation
gate passes. -/
def gateEvents (args : Args) (sz : Nat) : List Ev :=
  (if args.verbose then [Ev.diag (verboseLine sz)] else []) ++ [Ev.promptMaster] ++
    (if args.confirm then [Ev.promptConfirm] else [])

/-- A sample configuration for concrete runs. -/
def cfg0 : Config :=
  ⟨"login", [("pin", "[0-9]{8}")], [⟨"iphone.local", "pin", 1⟩]⟩

/-- A sample command line: plain invocation for an unconfigured site. -/
def args0 : Args := ⟨"example.com", none, none, false, false⟩

/-- A sample command line with confirmation requested. -/
def argsConfirm : Args := ⟨"example.com", none, none, true, false⟩

/-- A sample command line with verbose output requested. -/
def argsVerbose : Args := ⟨"example.com", none, none, false, true⟩

/-- A sample word list. -/
def words0 : Words := Words.mkFrom ["apple", "banana"]

/-- A sample parse result: a three-character class. -/
def parse0 : String → Option Expr := fun _ => some (.cls ['a', 'b', 'c'] false)

/-- A sample parse result: a four-character class. -/
def parse4 : String → Option Expr := fun _ => some (.cls ['a', 'b', 'c', 'd'] false)

/-- A sample parse result: the empty (zero-branch) alternation, whose
language is empty. -/
def parseNul : String → Option Expr := fun _ => some Expr.nul

/-- A sample key-derivation function. -/
def kdf0 : String → String → List Nat := fun _ _ => [7, 7]

/-- A second sample key-derivation function with the same output. -/
def kdf1 : String → String → List Nat := fun _ _ => [7, 7]

/-- A sample keystream: the `t`-th 256-bit draw is `t`. -/
def draw0 : List Nat → Nat → Nat := fun _ t => t

/-- A command line for a different site. -/
def argsOther : Args := ⟨"other.com", none, none, false, false⟩

theorem map_getD_range {α : Type} (l : List α) (d : α) :
    (List.range l.length).map (fun i => l.getD i d) = l := by
  induction l with
  | nil => rfl
  | cons a l ih =>
    rw [List.length_cons, List.range_succ_eq_map, List.map_cons, List.map_map]
    have hfun : ((fun i => (a :: l).getD i d) ∘ Nat.succ) = fun i => l.getD i d := by
      funext i
      simp [List.getD]
    rw [hfun, ih]
    rfl

theorem getD_map_range (h : Nat → Nat) (c b : Nat) (hb : b < c) :
    ((List.range c).map h).getD b 0 = h b := by
  rw [List.getD_eq_getElem?_getD, List.getElem?_map, List.getElem?_range hb]
  rfl

theorem map_range_add_split {α : Type} (f g : Nat → α) (m n : Nat) :
    (List.range (m + n)).map (fun i => if i < m then f i else g (i - m)) =
      (List.range m).map f ++ (List.range n).map g := by
  rw [List.range_add, List.map_append, List.map_map]
  refine congrArg₂ (· ++ ·) ?_ ?_
  · exact List.map_congr_left fun i hi => if_pos (List.mem_range.mp hi)
  · refine List.map_congr_left fun i _ => ?_
    have h1 : ¬ (m + i < m) := by omega
    have h2 : m + i - m = i := by omega
    simp [Function.comp, h1, h2]

theorem range_mul_flatMap (m n : Nat) :
    List.range (m * n) =
      (List.range m).flatMap (fun a => (List.range n).map (fun b => n * a + b)) := by
  induction m with
  | zero => simp
  | succ m ih =>
    rw [Nat.succ_mul, List.range_add, ih, List.range_succ, List.flatMap_append]
    refine congrArg₂ (· ++ ·) rfl ?_
    have : [m].flatMap (fun a => (List.range n).map (fun b => n * a + b)) =
        (List.range n).map (fun b => n * m + b) := by simp
    rw [this]
    exact List.map_congr_left fun b _ => by rw [Nat.mul_comm]

theorem map_range_mul (f g : Nat → String) (m n : Nat) :
    (List.range (m * n)).map (fun i => f (i / n) ++ g (i % n)) =
      (List.range m).flatMap (fun a => (List.range n).map (fun b => f a ++ g b)) := by
  rcases Nat.eq_zero_or_pos n with hn | hn
  · subst hn; simp
  · rw [range_mul_flatMap, List.map_flatMap]
    refine List.flatMap_congr fun a _ => ?_
    rw [List.map_map]
    refine List.map_congr_left fun b hb => ?_
    have hb' : b < n := List.mem_range.mp hb
    have hdiv : (n * a + b) / n = a := by
      rw [Nat.mul_add_div hn, Nat.div_eq_of_lt hb', Nat.add_zero]
    have hmod : (n * a + b) % n = b := by
      rw [Nat.mul_add_mod, Nat.mod_eq_of_lt hb']
    simp [Function.comp, hdiv, hmod]

theorem pick_map_range {α : Type} (F : Nat → Nat → α) (ls : List Nat) :
    (List.range ls.sum).map (fun i => F (pick ls i).1 (pick ls i).2) =
      (List.range ls.length).flatMap (fun b => (List.range (ls.getD b 0)).map (F b)) := by
  induction ls generalizing F with
  | nil => simp
  | cons l ls ih =>
    have hsum : (l :: ls).sum = l + ls.sum := by simp
    rw [hsum, List.range_add, List.map_append, List.map_map]
    have h1 : (List.range l).map (fun i => F (pick (l :: ls) i).1 (pick (l :: ls) i).2) =
        (List.range l).map (F 0) := by
      refine List.map_congr_left fun i hi => ?_
      have : i < l := List.mem_range.mp hi
      simp [pick, this]
    have h2 : (List.range ls.sum).map
          ((fun i => F (pick (l :: ls) i).1 (pick (l :: ls) i).2) ∘ (l + ·)) =
        (List.range ls.sum).map (fun i => F ((pick ls i).1 + 1) (pick ls i).2) := by
      refine List.map_congr_left fun i _ => ?_
      have hlt : ¬ (l + i < l) := by omega
      have hsub : l + i - l = i := by omega
      simp [Function.comp, pick, hlt, hsub]
    rw [h1, h2, ih (fun b j => F (b + 1) j)]
    rw [List.length_cons, List.range_succ_eq_map, List.flatMap_cons, List.flatMap_map]
    rfl

theorem decTimes_range (d : Nat → String) (s : Nat) (L : List String)
    (h : (List.range s).map d = L) :
    ∀ k, (List.range (s ^ k)).map (decTimes d s k) = enumTimes L k := by
  intro k
  induction k with
  | zero => simp [decTimes, enumTimes]
  | succ k ih =>
    have hpow : s ^ (k + 1) = s * s ^ k := by rw [pow_succ, Nat.mul_comm]
    have hfun : decTimes d s (k + 1) =
        fun j => d (j / s ^ k) ++ decTimes d s k (j % s ^ k) := rfl
    rw [hpow, hfun, map_range_mul d (decTimes d s k) s (s ^ k)]
    have hrhs : enumTimes L (k + 1) = L.flatMap (fun x => (enumTimes L k).map (x ++ ·)) := rfl
    rw [hrhs, ← ih, ← h, List.flatMap_map]
    refine List.flatMap_congr fun a _ => ?_
    rw [List.map_map]
    rfl

/-- The decoded outputs over the full index range are exactly the brute-force
enumeration of the schema's language, in order. -/
theorem decode_range_enum (ws : Words) :
    ∀ e : Expr, (List.range (ws.size e)).map (ws.decode e) = ws.enum e := by
  intro e
  induction e with
  | lit c => rfl
  | cls cs neg =>
    show (List.range (effSet cs neg).length).map
        (fun i => String.mk [(effSet cs neg).getD i 'A']) = _
    have : (fun i => String.mk [(effSet cs neg).getD i 'A']) =
        (fun c => String.mk [c]) ∘ (fun i => (effSet cs neg).getD i 'A') := rfl
    rw [this, ← List.map_map, map_getD_range]
    rfl
  | word t =>
    show (List.range ws.list.length).map
        (fun i => (ws.list.map (render t)).getD i "") = ws.list.map (render t)
    rw [← List.length_map ws.list (render t), map_getD_range]
  | eps => rfl
  | nul => rfl
  | cat a b iha ihb =>
    show (List.range (ws.size a * ws.size b)).map
        (fun i => ws.decode a (i / ws.size b) ++ ws.decode b (i % ws.size b)) = _
    rw [map_range_mul (ws.decode a) (ws.decode b) (ws.size a) (ws.size b)]
    show _ = (ws.enum a).flatMap (fun h => (ws.enum b).map (h ++ ·))
    rw [← iha, ← ihb, List.flatMap_map]
    refine List.flatMap_congr fun x _ => ?_
    rw [List.map_map]
    rfl
  | alt a b iha ihb =>
    show (List.range (ws.size a + ws.size b)).map
        (fun i => if i < ws.size a then ws.decode a i else ws.decode b (i - ws.size a)) = _
    rw [map_range_add_split, iha, ihb]
    rfl
  | rep e lo hi ihe =>
    set s := ws.size e with hs
    set ls := (List.range (hi + 1 - lo)).map (fun t => s ^ (lo + t)) with hls
    show (List.range ls.sum).map
        (fun i => decTimes (ws.decode e) s (lo + (pick ls i).1) (pick ls i).2) = _
    rw [pick_map_range (fun b j => decTimes (ws.decode e) s (lo + b) j) ls]
    have hlen : ls.length = hi + 1 - lo := by
      rw [hls, List.length_map, List.length_range]
    rw [hlen]
    show _ = (List.range (hi + 1 - lo)).flatMap (fun t => enumTimes (ws.enum e) (lo + t))
    refine List.flatMap_congr fun b hb => ?_
    have hb' : b < hi + 1 - lo := List.mem_range.mp hb
    have hget : ls.getD b 0 = s ^ (lo + b) := by
      rw [hls, getD_map_range _ _ _ hb']
    rw [hget, decTimes_range (ws.decode e) s (ws.enum e) ihe (lo + b)]

theorem digVal_digChar : ∀ d, d < 16 → digVal (digChar d) = d := by decide

theorem baseParse_basePad (b : Nat) (hb : 2 ≤ b) (hb16 : b ≤ 16) :
    ∀ w n acc, n < b ^ w →
      (basePad b w n).foldl (fun acc c => b * acc + digVal c) acc = acc * b ^ w + n := by
  intro w
  induction w with
  | zero =>
    intro n acc hn
    have : n = 0 := by simpa using hn
    subst this
    simp [basePad]
  | succ w ih =>
    intro n acc hn
    have hq : n / b ^ w < b := by
      rw [Nat.div_lt_iff_lt_mul (Nat.pos_pow_of_pos w (by omega))]
      calc n < b ^ (w + 1) := hn
        _ = b * b ^ w := by rw [pow_succ, Nat.mul_comm]
    have hq16 : n / b ^ w < 16 := lt_of_lt_of_le hq hb16
    have hr : n % b ^ w < b ^ w := Nat.mod_lt _ (Nat.pos_pow_of_pos w (by omega))
    show List.foldl _ _ (digChar (n / b ^ w) :: basePad b w (n % b ^ w)) = _
    rw [List.foldl_cons, digVal_digChar _ hq16, ih (n % b ^ w) _ hr]
    have hdm : b ^ w * (n / b ^ w) + n % b ^ w = n := Nat.div_add_mod n (b ^ w)
    calc (b * acc + n / b ^ w) * b ^ w + n % b ^ w
        = acc * (b ^ w * b) + (b ^ w * (n / b ^ w) + n % b ^ w) := by ring
      _ = acc * b ^ (w + 1) + n := by rw [hdm, pow_succ]

theorem digVal_zero_char : digVal '0' = 0 := rfl

theorem foldl_trimZeros (b : Nat) (l : List Char) :
    (trimZeros l).foldl (fun acc c => b * acc + digVal c) 0 =
      l.foldl (fun acc c => b * acc + digVal c) 0 := by
  induction l with
  | nil => rfl
  | cons c l ih =>
    by_cases hc : c = '0'
    · subst hc
      show (List.dropWhile _ ('0' :: l)).foldl _ 0 = _
      rw [List.dropWhile_cons_of_pos (by rfl), List.foldl_cons]
      have : b * 0 + digVal '0' = 0 := by simp [digVal_zero_char]
      rw [this]
      exact ih
    · show (List.dropWhile _ (c :: l)).foldl _ 0 = _
      rw [List.dropWhile_cons_of_neg (by simpa using hc)]

theorem baseParse_trim (b : Nat) (hb : 2 ≤ b) (hb16 : b ≤ 16) (w n : Nat) (hn : n < b ^ w) :
    baseParse b (trimZeros (basePad b w n)) = n := by
  rw [baseParse, foldl_trimZeros, baseParse_basePad b hb hb16 w n 0 hn, Nat.zero_mul,
    Nat.zero_add]

theorem decRepr_parse (n : Nat) (hn : n < 10 ^ 10) : baseParse 10 (decRepr n) = n := by
  by_cases h0 : n = 0
  · subst h0; rfl
  · rw [decRepr, if_neg h0]
    exact baseParse_trim 10 (by omega) (by omega) 10 n hn

theorem hexTrimmed_parse (n : Nat) (hn : n < 2 ^ 256) : baseParse 16 (hexTrimmed n) = n := by
  have : n < 16 ^ 64 := by
    have : (16 : Nat) ^ 64 = 2 ^ 256 := by norm_num
    omega
  exact baseParse_trim 16 (by omega) (by omega) 64 n this

theorem digChar_ne_colon : ∀ d, d < 16 → digChar d ≠ ':' := by decide

theorem basePad_mem (b : Nat) (hb : 2 ≤ b) (hb16 : b ≤ 16) :
    ∀ w n c, n < b ^ w → c ∈ basePad b w n → ∃ d, d < 16 ∧ c = digChar d := by
  intro w
  induction w with
  | zero => intro n c _ hc; simp [basePad] at hc
  | succ w ih =>
    intro n c hn hc
    have hq : n / b ^ w < b := by
      rw [Nat.div_lt_iff_lt_mul (Nat.pos_pow_of_pos w (by omega))]
      calc n < b ^ (w + 1) := hn
        _ = b * b ^ w := by rw [pow_succ, Nat.mul_comm]
    have hr : n % b ^ w < b ^ w := Nat.mod_lt _ (Nat.pos_pow_of_pos w (by omega))
    rcases List.mem_cons.mp hc with h | h
    · exact ⟨n / b ^ w, lt_of_lt_of_le hq hb16, h⟩
    · exact ih (n % b ^ w) c hr h

theorem trimZeros_subset {l : List Char} {c : Char} (h : c ∈ trimZeros l) : c ∈ l :=
  (List.dropWhile_sublist _).mem h

theorem decRepr_no_colon (n : Nat) (hn : n < 10 ^ 10) : ':' ∉ decRepr n := by
  by_cases h0 : n = 0
  · subst h0; decide
  · rw [decRepr, if_neg h0]
    intro hmem
    obtain ⟨d, hd, hc⟩ := basePad_mem 10 (by omega) (by omega) 10 n ':'
      hn (trimZeros_subset hmem)
    exact digChar_ne_colon d hd hc.symm

theorem append_colon_inj :
    ∀ (l1 : List Char) {r1 : List Char} (l2 : List Char) {r2 : List Char},
      ':' ∉ l1 → ':' ∉ l2 → l1 ++ ':' :: r1 = l2 ++ ':' :: r2 → l1 = l2 ∧ r1 = r2 := by
  intro l1
  induction l1 with
  | nil =>
    intro r1 l2 r2 _ h2 h
    cases l2 with
    | nil => simpa using h
    | cons b l2 =>
      exfalso
      have hb : b = ':' := (List.cons.injEq _ _ _ _ ▸ h).1.symm
      exact h2 (hb ▸ List.mem_cons_self b l2)
  | cons a l1 ih =>
    intro r1 l2 r2 h1 h2 h
    cases l2 with
    | nil =>
      exfalso
      have ha : a = ':' := (List.cons.injEq _ _ _ _ ▸ h).1
      exact h1 (ha ▸ List.mem_cons_self a l1)
    | cons b l2 =>
      have hab : a = b := (List.cons.injEq _ _ _ _ ▸ h).1
      have htl : l1 ++ ':' :: r1 = l2 ++ ':' :: r2 := (List.cons.injEq _ _ _ _ ▸ h).2
      have h1' : ':' ∉ l1 := fun hm => h1 (List.mem_cons_of_mem a hm)
      have h2' : ':' ∉ l2 := fun hm => h2 (List.mem_cons_of_mem b hm)
      obtain ⟨hl, hr⟩ := ih l2 h1' h2' htl
      exact ⟨by rw [hab, hl], hr⟩

theorem saltOf_inj (i1 i2 : Nat) (s1 s2 : String) (h1 : i1 < 2 ^ 32) (h2 : i2 < 2 ^ 32)
    (h : saltOf i1 s1 = saltOf i2 s2) : i1 = i2 ∧ s1 = s2 := by
  have h1' : i1 < 10 ^ 10 := by omega
  have h2' : i2 < 10 ^ 10 := by omega
  have hdata : decRepr i1 ++ ':' :: s1.data = decRepr i2 ++ ':' :: s2.data :=
    congrArg String.data h
  obtain ⟨hl, hr⟩ := append_colon_inj (decRepr i1) (decRepr i2)
    (decRepr_no_colon i1 h1') (decRepr_no_colon i2 h2') hdata
  constructor
  · have := congrArg (baseParse 10) hl
    rwa [decRepr_parse i1 h1', decRepr_parse i2 h2'] at this
  · cases s1; cases s2; exact congrArg String.mk (by simpa using hr)

theorem bitsAux_zero : ∀ f, bitsAux f 0 = 0 := by
  intro f; cases f <;> rfl

theorem bitsAux_spec :
    ∀ f n, n ≤ f → n < 2 ^ bitsAux f n ∧ (0 < n → 2 ^ (bitsAux f n - 1) ≤ n) := by
  intro f
  induction f with
  | zero =>
    intro n hn
    have : n = 0 := Nat.le_zero.mp hn
    subst this
    exact ⟨by rw [bitsAux_zero]; omega, fun h => absurd h (by omega)⟩
  | succ f ih =>
    intro n hn
    by_cases h0 : n = 0
    · subst h0
      exact ⟨by rw [bitsAux_zero]; omega, fun h => absurd h (by omega)⟩
    · have heq : bitsAux (f + 1) n = bitsAux f (n / 2) + 1 := by
        show (if n = 0 then 0 else bitsAux f (n / 2) + 1) = _
        rw [if_neg h0]
      have hhalf : n / 2 ≤ f := by omega
      obtain ⟨ha, hb⟩ := ih (n / 2) hhalf
      rw [heq]
      constructor
      · rw [pow_succ]
        omega
      · intro _
        rw [Nat.add_sub_cancel]
        by_cases hh : n / 2 = 0
        · have : n = 1 := by omega
          subst this
          rw [hh, bitsAux_zero]
          omega
        · have hb' := hb (by omega)
          have hpos : 0 < bitsAux f (n / 2) := by
            cases f with
            | zero => omega
            | succ f =>
              show 0 < (if n / 2 = 0 then 0 else bitsAux f (n / 2 / 2) + 1)
              rw [if_neg hh]
              omega
          have : 2 ^ bitsAux f (n / 2) = 2 ^ (bitsAux f (n / 2) - 1) * 2 := by
            rw [← pow_succ]
            congr 1
            omega
          rw [this]
          omega

theorem bitsOf_lt (n : Nat) : n < 2 ^ bitsOf n := (bitsAux_spec n n le_rfl).1

theorem bitsOf_le_of_lt {n w : Nat} (h : n < 2 ^ w) : bitsOf n ≤ w := by
  by_cases h0 : n = 0
  · subst h0
    rw [bitsOf, bitsAux_zero]
    omega
  · by_contra hc
    have hw : w ≤ bitsOf n - 1 := by omega
    have hlow : 2 ^ (bitsOf n - 1) ≤ n := (bitsAux_spec n n le_rfl).2 (by omega)
    have hle : (2 : Nat) ^ w ≤ 2 ^ (bitsOf n - 1) := Nat.pow_le_pow_right (by omega) hw
    omega

theorem acceptStep_lt {n d v : Nat} (h : acceptStep n d = some v) : v < n := by
  unfold acceptStep at h
  by_cases hlt : d % 2 ^ bitsOf n < n
  · rw [if_pos hlt] at h
    injection h with h
    omega
  · rw [if_neg hlt] at h
    cases h

theorem sampleMod_lt {draw : Nat → Nat} {n : Nat} :
    ∀ {fuel t v : Nat}, sampleMod draw n fuel t = some v → v < n := by
  intro fuel
  induction fuel with
  | zero => intro t v h; simp [sampleMod] at h
  | succ fuel ih =>
    intro t v h
    unfold sampleMod at h
    rcases hacc : acceptStep n (draw t) with _ | w
    · rw [hacc] at h
      exact ih h
    · rw [hacc] at h
      cases h
      exact acceptStep_lt hacc

theorem filter_mod_card (M m v : Nat) (hm : 0 < m) (hv : v < m) :
    ((Finset.range (m * M)).filter (fun d => d % m = v)).card = M := by
  have himg : (Finset.range (m * M)).filter (fun d => d % m = v) =
      (Finset.range M).image (fun q => q * m + v) := by
    ext d
    simp only [Finset.mem_filter, Finset.mem_range, Finset.mem_image]
    constructor
    · rintro ⟨hd, hmod⟩
      refine ⟨d / m, ?_, ?_⟩
      · rw [Nat.div_lt_iff_lt_mul hm]
        calc d < m * M := hd
          _ = M * m := Nat.mul_comm m M
      · have hdm := Nat.div_add_mod d m
        calc d / m * m + v = m * (d / m) + d % m := by rw [hmod, Nat.mul_comm]
          _ = d := hdm
    · rintro ⟨q, hq, rfl⟩
      constructor
      · calc q * m + v < q * m + m := by omega
          _ = (q + 1) * m := by ring
          _ ≤ M * m := Nat.mul_le_mul_right m (by omega)
          _ = m * M := Nat.mul_comm M m
      · have harith : (q * m + v) % m = v % m := by
          rw [Nat.add_comm]
          exact Nat.add_mul_mod_self_right v q m
        rw [harith, Nat.mod_eq_of_lt hv]
  have hinj : Function.Injective (fun q => q * m + v) := by
    intro q1 q2 h
    have h' : q1 * m + v = q2 * m + v := h
    have : q1 * m = q2 * m := by omega
    exact Nat.eq_of_mul_eq_mul_right hm this
  rw [himg, Finset.card_image_of_injective _ hinj, Finset.card_range]

theorem accept_uniform (n v : Nat) (_hn : 0 < n) (hN : n < 2 ^ 256) (hv : v < n) :
    ((Finset.range (2 ^ 256)).filter (fun d => acceptStep n d = some v)).card =
      2 ^ (256 - bitsOf n) := by
  have hble : bitsOf n ≤ 256 := bitsOf_le_of_lt hN
  have hvm : v < 2 ^ bitsOf n := lt_of_lt_of_le hv (le_of_lt (bitsOf_lt n))
  have hfilter : (Finset.range (2 ^ 256)).filter (fun d => acceptStep n d = some v) =
      (Finset.range (2 ^ 256)).filter (fun d => d % 2 ^ bitsOf n = v) := by
    refine Finset.filter_congr fun d _ => ?_
    show (acceptStep n d = some v) ↔ _
    unfold acceptStep
    by_cases hlt : d % 2 ^ bitsOf n < n
    · simp only [hlt, if_pos, Option.some.injEq]
    · simp only [hlt, if_neg, not_false_iff]
      constructor
      · intro h; cases h
      · intro h; exact absurd (h ▸ hv) hlt
  have hsplit : (2 : Nat) ^ 256 = 2 ^ bitsOf n * 2 ^ (256 - bitsOf n) := by
    rw [← pow_add]
    congr 1
    omega
  rw [hfilter, hsplit]
  exact filter_mod_card (2 ^ (256 - bitsOf n)) (2 ^ bitsOf n) v
    (Nat.pos_pow_of_pos _ (by omega)) hvm

theorem runMain_gate (cfg : Config) (args : Args) (ws : Words)
    (parse : String → Option Expr) (mi ci : String) (kdf : String → String → List Nat)
    (draw : List Nat → Nat → Nat) (fuel : Nat) (term : Bool) (expr : Expr)
    (hp : parse (runSchema cfg args) = some expr)
    (hgate : args.confirm = false ∨ ci = mi) :
    runMain cfg args ws parse mi ci kdf draw fuel term =
      ⟨gateEvents args (ws.size expr) ++ [Ev.kdfRun (runSalt cfg args)] ++
          (afterKeyCore ws expr (kdf mi (runSalt cfg args)) draw fuel term).1,
        (afterKeyCore ws expr (kdf mi (runSalt cfg args)) draw fuel term).2.1,
        (afterKeyCore ws expr (kdf mi (runSalt cfg args)) draw fuel term).2.2⟩ := by
  unfold runMain gateEvents
  rw [hp]
  rcases hgate with hg | hg
  · simp [hg]
  · by_cases hc : args.confirm
    · subst hg
      simp [hc]
    · simp [hc]

theorem afterKeyCore_err (ws : Words) (expr : Expr) (key : List Nat)
    (draw : List Nat → Nat → Nat) (fuel : Nat) (term : Bool) :
    (afterKeyCore ws expr key draw fuel term).2.2 ≠ some MainErr.genError := by
  unfold afterKeyCore
  by_cases hz : ws.size expr = 0
  · rw [if_pos hz]
    simp
  · rw [if_neg hz]
    rcases hsm : sampleMod (draw key) (ws.size expr) fuel 0 with _ | i
    · simp
    · have hi : i < ws.size expr := sampleMod_lt hsm
      have hgen : ws.gen_at expr i = .ok (ws.decode expr i) := by
        unfold Words.gen_at
        rw [if_pos hi]
      simp [hgen]

theorem drawIndex_not_gate (args : Args) (sz : Nat) (i : Nat) :
    Ev.drawIndex i ∉ gateEvents args sz := by
  unfold gateEvents
  by_cases hv : args.verbose <;> by_cases hc : args.confirm <;> simp [hv, hc]

/-- C1 (amended): for every schema AST node, `gen_at` over the index range
`[0, size)` produces exactly the brute-force enumeration sequence of the
schema's language (every output is in the language and every language
string is reached); the outputs are pairwise distinct whenever that
sequence has no duplicate, and in particular for `[ab]{2,3}` the 12 decoded
strings are exactly {aa,ab,ba,bb,aaa,aab,aba,abb,baa,bab,bba,bbb}, pairwise
distinct. -/
theorem C1_gen_at_enumerates :
    (∀ (ws : Words) (e : Expr),
        (List.range (ws.size e)).map (ws.gen_at e) = (ws.enum e).map Except.ok) ∧
    (List.range 12).map
        (Words.gen_at (Words.mkFrom []) (.rep (.cls ['a', 'b'] false) 2 3)) =
      ["aa", "ab", "ba", "bb", "aaa", "aab", "aba", "abb",
        "baa", "bab", "bba", "bbb"].map Except.ok ∧
    (["aa", "ab", "ba", "bb", "aaa", "aab", "aba", "abb",
      "baa", "bab", "bba", "bbb"] : List String).Nodup := by
  refine ⟨fun ws e => ?_, rfl, by decide⟩
  have hmap : ∀ i ∈ List.range (ws.size e), ws.gen_at e i = Except.ok (ws.decode e i) := by
    intro i hi
    unfold Words.gen_at
    rw [if_pos (List.mem_range.mp hi)]
  calc (List.range (ws.size e)).map (ws.gen_at e)
      = (List.range (ws.size e)).map (fun i => Except.ok (ws.decode e i)) :=
        List.map_congr_left hmap
    _ = ((List.range (ws.size e)).map (ws.decode e)).map Except.ok := by
        rw [List.map_map]
        rfl
    _ = (ws.enum e).map Except.ok := by rw [decode_range_enum]

/-- C1 counterexample: for the alternation `(a|a)` — two identical literal
branches, a well-formed AST node of size 2 — indices 0 and 1 decode to the
same string `"a"`, so the outputs for distinct indices are not pairwise
distinct and do not form the language's strings without duplicates. -/
theorem C1_duplicate_branches :
    Words.gen_at (Words.mkFrom ["apple"]) (.alt (.lit 'a') (.lit 'a')) 0 =
      Words.gen_at (Words.mkFrom ["apple"]) (.alt (.lit 'a') (.lit 'a')) 1 ∧
    (0 : Nat) ≠ 1 ∧
    Words.size (Words.mkFrom ["apple"]) (.alt (.lit 'a') (.lit 'a')) = 2 ∧
    Words.gen_at (Words.mkFrom ["apple"]) (.alt (.lit 'a') (.lit 'a')) 0 = .ok "a" := by
  exact ⟨rfl, by decide, rfl, rfl⟩

/-- C2: the whole derivation is deterministic — two runs with identical
configuration, arguments, word list, parse function, master secret,
confirmation input, key-derivation function, keystream, fuel and terminal
flag produce identical results, and `gen_at` called twice with identical
arguments yields identical output. -/
theorem C2_deterministic :
    (∀ (cfg cfg' : Config) (args args' : Args) (ws ws' : Words)
        (parse parse' : String → Option Expr) (mi mi' ci ci' : String)
        (kdf kdf' : String → String → List Nat) (draw draw' : List Nat → Nat → Nat)
        (fuel fuel' : Nat) (term term' : Bool),
      cfg = cfg' → args = args' → ws = ws' → parse = parse' → mi = mi' → ci = ci' →
      kdf = kdf' → draw = draw' → fuel = fuel' → term = term' →
      runMain cfg args ws parse mi ci kdf draw fuel term =
        runMain cfg' args' ws' parse' mi' ci' kdf' draw' fuel' term') ∧
    (∀ (ws ws' : Words) (e e' : Expr) (i i' : Nat),
      ws = ws' → e = e' → i = i' → ws.gen_at e i = ws'.gen_at e' i') := by
  constructor
  · intro cfg cfg' args args' ws ws' parse parse' mi mi' ci ci' kdf kdf' draw draw'
      fuel fuel' term term' h1 h2 h3 h4 h5 h6 h7 h8 h9 h10
    subst h1; subst h2; subst h3; subst h4; subst h5
    subst h6; subst h7; subst h8; subst h9; subst h10
    rfl
  · intro ws ws' e e' i i' h1 h2 h3
    subst h1; subst h2; subst h3
    rfl

/-- C2 witness: the determinism theorem applied at a concrete run. -/
theorem C2_deterministic_witness :
    runMain cfg0 args0 words0 parse0 "pw" "pw" kdf0 draw0 3 false =
      runMain cfg0 args0 words0 parse0 "pw" "pw" kdf0 draw0 3 false ∧
    Words.gen_at words0 (.lit 'a') 0 = Words.gen_at words0 (.lit 'a') 0 :=
  ⟨C2_deterministic.1 cfg0 cfg0 args0 args0 words0 words0 parse0 parse0 "pw" "pw" "pw" "pw"
      kdf0 kdf0 draw0 draw0 3 3 false false rfl rfl rfl rfl rfl rfl rfl rfl rfl rfl,
    C2_deterministic.2 words0 words0 (.lit 'a') (.lit 'a') 0 0 rfl rfl rfl⟩

/-- C3 (amended): when the schema's cardinality is zero and the
confirmation gate passes, the run fails — the `NonZero::new(size).unwrap()`
panic — with no password emitted and no index drawn, but the failure occurs
after the master-secret prompt (and after key derivation), not before it. -/
theorem C3_zero_cardinality (cfg : Config) (args : Args) (ws : Words)
    (parse : String → Option Expr) (mi ci : String) (kdf : String → String → List Nat)
    (draw : List Nat → Nat → Nat) (fuel : Nat) (term : Bool) (expr : Expr)
    (hp : parse (runSchema cfg args) = some expr)
    (hz : ws.size expr = 0)
    (hgate : args.confirm = false ∨ ci = mi) :
    (runMain cfg args ws parse mi ci kdf draw fuel term).err = some .zeroModulusPanic ∧
    (runMain cfg args ws parse mi ci kdf draw fuel term).outBytes = "" ∧
    Ev.promptMaster ∈ (runMain cfg args ws parse mi ci kdf draw fuel term).events ∧
    ∀ i, Ev.drawIndex i ∉ (runMain cfg args ws parse mi ci kdf draw fuel term).events := by
  have hcore : afterKeyCore ws expr (kdf mi (runSalt cfg args)) draw fuel term =
      ([], "", some .zeroModulusPanic) := by
    unfold afterKeyCore
    rw [if_pos hz]
  rw [runMain_gate cfg args ws parse mi ci kdf draw fuel term expr hp hgate, hcore]
  refine ⟨rfl, rfl, ?_, fun i hmem => ?_⟩
  · show Ev.promptMaster ∈ gateEvents args (ws.size expr) ++ [Ev.kdfRun (runSalt cfg args)] ++ []
    unfold gateEvents
    simp
  · rw [List.append_nil] at hmem
    rcases List.mem_append.mp hmem with h | h
    · exact drawIndex_not_gate args (ws.size expr) i h
    · simp at h

/-- C3 witness: the amended theorem applied at a concrete zero-cardinality
run. -/
theorem C3_zero_cardinality_witness :
    parseNul (runSchema cfg0 args0) = some Expr.nul ∧
    Words.size words0 Expr.nul = 0 ∧
    (runMain cfg0 args0 words0 parseNul "pw" "pw" kdf0 draw0 3 false).err =
      some MainErr.zeroModulusPanic :=
  ⟨rfl, rfl,
    (C3_zero_cardinality cfg0 args0 words0 parseNul "pw" "pw" kdf0 draw0 3 false Expr.nul
      rfl rfl (Or.inl rfl)).1⟩

/-- C3 counterexample: in a concrete zero-cardinality run the failure is
the zero-modulus panic and the master-secret prompt *does* occur before it,
refuting the claim that the program fails before any master-secret
prompt. -/
theorem C3_prompt_precedes_failure :
    (runMain cfg0 args0 words0 parseNul "pw" "pw" kdf0 draw0 3 false).err =
      some MainErr.zeroModulusPanic ∧
    Ev.promptMaster ∈ (runMain cfg0 args0 words0 parseNul "pw" "pw" kdf0 draw0 3 false).events := by
  exact ⟨by decide, by decide⟩

/-- C4: when confirmation is requested and the confirmation input differs
from the master-secret input, the run fails with the mismatch error, writes
nothing, and never invokes key derivation. -/
theorem C4_confirmation_gate (cfg : Config) (args : Args) (ws : Words)
    (parse : String → Option Expr) (mi ci : String) (kdf : String → String → List Nat)
    (draw : List Nat → Nat → Nat) (fuel : Nat) (term : Bool) (expr : Expr)
    (hp : parse (runSchema cfg args) = some expr)
    (hc : args.confirm = true) (hne : ci ≠ mi) :
    (runMain cfg args ws parse mi ci kdf draw fuel term).err = some .secretMismatch ∧
    (runMain cfg args ws parse mi ci kdf draw fuel term).outBytes = "" ∧
    ∀ s, Ev.kdfRun s ∉ (runMain cfg args ws parse mi ci kdf draw fuel term).events := by
  have hrun : runMain cfg args ws parse mi ci kdf draw fuel term =
      ⟨((if args.verbose then [Ev.diag (verboseLine (ws.size expr))] else []) ++
          [Ev.promptMaster]) ++ [Ev.promptConfirm], "", some .secretMismatch⟩ := by
    unfold runMain
    rw [hp, hc]
    simp [hne]
  rw [hrun]
  refine ⟨rfl, rfl, fun s => ?_⟩
  by_cases hv : args.verbose <;> simp [hv]

/-- C4 witness: the confirmation-gate theorem applied at a concrete
mismatching run. -/
theorem C4_confirmation_gate_witness :
    ("no" : String) ≠ "pw" ∧
    (runMain cfg0 argsConfirm words0 parse0 "pw" "no" kdf0 draw0 3 false).err =
      some MainErr.secretMismatch :=
  ⟨by decide,
    (C4_confirmation_gate cfg0 argsConfirm words0 parse0 "pw" "no" kdf0 draw0 3 false
      (.cls ['a', 'b', 'c'] false) rfl rfl (by decide)).1⟩

/-- C5: the salt fed to key derivation is the increment followed by a colon
and the raw site argument; the pair (increment, site) is recoverable from
the salt, so changing either changes the salt; and the increment defaults
to 0 when neither the command line nor a matching site entry supplies
one. -/
theorem C5_salt_construction :
    (∀ (cfg : Config) (args : Args) (ws : Words) (parse : String → Option Expr)
        (mi ci : String) (kdf : String → String → List Nat)
        (draw : List Nat → Nat → Nat) (fuel : Nat) (term : Bool) (expr : Expr),
      parse (runSchema cfg args) = some expr →
      (args.confirm = false ∨ ci = mi) →
      Ev.kdfRun (saltOf (resolveIncrement args.incArg (findSite cfg.sites args.site)) args.site)
        ∈ (runMain cfg args ws parse mi ci kdf draw fuel term).events) ∧
    (∀ (i1 i2 : Nat) (s1 s2 : String), i1 < 2 ^ 32 → i2 < 2 ^ 32 →
      saltOf i1 s1 = saltOf i2 s2 → i1 = i2 ∧ s1 = s2) ∧
    (∀ (cfg : Config) (args : Args), args.incArg = none →
      findSite cfg.sites args.site = none →
      resolveIncrement args.incArg (findSite cfg.sites args.site) = 0) := by
  refine ⟨?_, fun i1 i2 s1 s2 h1 h2 h => saltOf_inj i1 i2 s1 s2 h1 h2 h, ?_⟩
  · intro cfg args ws parse mi ci kdf draw fuel term expr hp hgate
    rw [runMain_gate cfg args ws parse mi ci kdf draw fuel term expr hp hgate]
    show Ev.kdfRun _ ∈ gateEvents args (ws.size expr) ++ [Ev.kdfRun (runSalt cfg args)] ++ _
    refine List.mem_append.mpr (Or.inl (List.mem_append.mpr (Or.inr ?_)))
    simp [runSalt]
  · intro cfg args h1 h2
    rw [h1, h2]
    rfl

/-- C5 witness: the salt theorem applied at a concrete run. -/
theorem C5_salt_construction_witness :
    parse0 (runSchema cfg0 args0) = some (.cls ['a', 'b', 'c'] false) ∧
    Ev.kdfRun (saltOf (resolveIncrement args0.incArg (findSite cfg0.sites args0.site)) args0.site)
      ∈ (runMain cfg0 args0 words0 parse0 "pw" "pw" kdf0 draw0 3 false).events ∧
    ((5 : Nat) = 5 ∧ ("x" : String) = "x") ∧
    resolveIncrement args0.incArg (findSite cfg0.sites args0.site) = 0 :=
  ⟨rfl,
    C5_salt_construction.1 cfg0 args0 words0 parse0 "pw" "pw" kdf0 draw0 3 false
      (.cls ['a', 'b', 'c'] false) rfl (Or.inl rfl),
    C5_salt_construction.2.1 5 5 "x" "x" (by decide) (by decide) rfl,
    C5_salt_construction.2.2 cfg0 args0 rfl (by decide)⟩

/-- C6: the rejection sampler only returns values below the cardinality;
each value below the cardinality is hit by exactly `2^(256 - bits)` of the
`2^256` equally likely raw draws of one trial (no modulo bias — the count
is independent of the value); and consequently the decoder's
index-out-of-range branch is unreachable in any complete run. -/
theorem C6_unbiased_sampling :
    (∀ (draw : Nat → Nat) (n fuel t v : Nat),
      sampleMod draw n fuel t = some v → v < n) ∧
    (∀ n v : Nat, 0 < n → n < 2 ^ 256 → v < n →
      ((Finset.range (2 ^ 256)).filter (fun d => acceptStep n d = some v)).card =
        2 ^ (256 - bitsOf n)) ∧
    (∀ (cfg : Config) (args : Args) (ws : Words) (parse : String → Option Expr)
        (mi ci : String) (kdf : String → String → List Nat)
        (draw : List Nat → Nat → Nat) (fuel : Nat) (term : Bool),
      (runMain cfg args ws parse mi ci kdf draw fuel term).err ≠ some .genError) := by
  refine ⟨fun draw n fuel t v h => sampleMod_lt h,
    fun n v h1 h2 h3 => accept_uniform n v h1 h2 h3, ?_⟩
  intro cfg args ws parse mi ci kdf draw fuel term
  rcases hp : parse (runSchema cfg args) with _ | expr
  · unfold runMain
    rw [hp]
    simp
  · by_cases hgate : args.confirm = false ∨ ci = mi
    · rw [runMain_gate cfg args ws parse mi ci kdf draw fuel term expr hp hgate]
      exact afterKeyCore_err ws expr (kdf mi (runSalt cfg args)) draw fuel term
    · push_neg at hgate
      obtain ⟨hc, hne⟩ := hgate
      have hc' : args.confirm = true := by
        cases hcb : args.confirm
        · exact absurd hcb hc
        · rfl
      unfold runMain
      rw [hp, hc']
      simp [hne]

/-- C6 witness: the sampling theorem applied at concrete inputs. -/
theorem C6_unbiased_sampling_witness :
    (0 : Nat) < 3 ∧
    ((Finset.range (2 ^ 256)).filter (fun d => acceptStep 3 d = some 1)).card =
      2 ^ (256 - bitsOf 3) :=
  ⟨C6_unbiased_sampling.1 (fun t => t) 3 1 0 0 (by decide),
    C6_unbiased_sampling.2.1 3 1 (by decide) (by decide) (by decide)⟩

/-- C7 (amended): in verbose mode the diagnostic line is emitted and
carries the cardinality as a bit length (a true bit length: the cardinality
lies between the adjacent powers of two) and as an exact value (the printed
trimmed hexadecimal digits parse back to the exact cardinality); the salt
is not part of the diagnostic output. -/
theorem C7_verbose_diagnostics :
    (∀ (cfg : Config) (args : Args) (ws : Words) (parse : String → Option Expr)
        (mi ci : String) (kdf : String → String → List Nat)
        (draw : List Nat → Nat → Nat) (fuel : Nat) (term : Bool) (expr : Expr),
      parse (runSchema cfg args) = some expr → args.verbose = true →
      Ev.diag (verboseLine (ws.size expr)) ∈
        (runMain cfg args ws parse mi ci kdf draw fuel term).events) ∧
    (∀ n : Nat, 0 < n → 2 ^ (bitsOf n - 1) ≤ n ∧ n < 2 ^ bitsOf n) ∧
    (∀ n : Nat, n < 2 ^ 256 → baseParse 16 (hexTrimmed n) = n) := by
  refine ⟨?_, fun n hn => ⟨(bitsAux_spec n n le_rfl).2 hn, (bitsAux_spec n n le_rfl).1⟩,
    fun n hn => hexTrimmed_parse n hn⟩
  intro cfg args ws parse mi ci kdf draw fuel term expr hp hv
  unfold runMain
  rw [hp, hv]
  by_cases hc : args.confirm <;> by_cases hne : ci ≠ mi <;>
    simp [hc, hne, List.mem_append]

/-- C7 witness: the verbose theorem applied at a concrete verbose run. -/
theorem C7_verbose_diagnostics_witness :
    parse4 (runSchema cfg0 argsVerbose) = some (.cls ['a', 'b', 'c', 'd'] false) ∧
    Ev.diag (verboseLine (Words.size words0 (.cls ['a', 'b', 'c', 'd'] false))) ∈
      (runMain cfg0 argsVerbose words0 parse4 "pw" "pw" kdf0 draw0 3 false).events ∧
    ((0 : Nat) < 4 ∧ 2 ^ (bitsOf 4 - 1) ≤ 4 ∧ 4 < 2 ^ bitsOf 4) ∧
    baseParse 16 (hexTrimmed 4) = 4 :=
  ⟨rfl,
    C7_verbose_diagnostics.1 cfg0 argsVerbose words0 parse4 "pw" "pw" kdf0 draw0 3 false
      (.cls ['a', 'b', 'c', 'd'] false) rfl rfl,
    ⟨by decide, C7_verbose_diagnostics.2.1 4 (by decide)⟩,
    C7_verbose_diagnostics.2.2 4 (by decide)⟩

/-- C7 counterexample: in a concrete verbose run, the run's events are the
diagnostic line, the prompt, the key-derivation step and the output steps —
and the computed salt does not occur in the diagnostic line, refuting the
claim that verbose mode also emits the salt. -/
theorem C7_salt_not_emitted :
    (runMain cfg0 argsVerbose words0 parse4 "pw" "pw" kdf0 draw0 3 false).events =
      [Ev.diag (verboseLine 4), Ev.promptMaster,
        Ev.kdfRun (saltOf 0 "example.com"), Ev.drawIndex 0, Ev.writeOut] ∧
    ¬ ((saltOf 0 "example.com").data <:+: (verboseLine 4).data) := by
  exact ⟨by decide, by decide⟩

/-- C8: on success the generated password is written to standard output
followed by a newline exactly when standard output is a terminal; piped
output is byte-exact with no terminator. -/
theorem C8_output_terminator (cfg : Config) (args : Args) (ws : Words)
    (parse : String → Option Expr) (mi ci : String) (kdf : String → String → List Nat)
    (draw : List Nat → Nat → Nat) (fuel : Nat) (term : Bool) (expr : Expr) (i : Nat)
    (hp : parse (runSchema cfg args) = some expr)
    (hgate : args.confirm = false ∨ ci = mi)
    (hsm : sampleMod (draw (kdf mi (runSalt cfg args))) (ws.size expr) fuel 0 = some i) :
    (runMain cfg args ws parse mi ci kdf draw fuel term).outBytes =
      ws.decode expr i ++ (if term then String.mk ['\n'] else "") ∧
    (term = false →
      (runMain cfg args ws parse mi ci kdf draw fuel term).outBytes = ws.decode expr i) ∧
    (runMain cfg args ws parse mi ci kdf draw fuel term).err = none := by
  have hi : i < ws.size expr := sampleMod_lt hsm
  have hz : ¬ ws.size expr = 0 := by omega
  have hcore : afterKeyCore ws expr (kdf mi (runSalt cfg args)) draw fuel term =
      ([Ev.drawIndex i, Ev.writeOut],
        ws.decode expr i ++ (if term then String.mk ['\n'] else ""), none) := by
    unfold afterKeyCore
    rw [if_neg hz, hsm]
    have hgen : ws.gen_at expr i = .ok (ws.decode expr i) := by
      unfold Words.gen_at
      rw [if_pos hi]
    simp [hgen]
  rw [runMain_gate cfg args ws parse mi ci kdf draw fuel term expr hp hgate, hcore]
  refine ⟨rfl, fun ht => ?_, rfl⟩
  show ws.decode expr i ++ (if term then String.mk ['\n'] else "") = ws.decode expr i
  rw [ht]
  show ws.decode expr i ++ "" = ws.decode expr i
  exact String.append_empty _

/-- C8 witness: the output theorem applied at a concrete piped run. -/
theorem C8_output_terminator_witness :
    sampleMod (draw0 (kdf0 "pw" (runSalt cfg0 args0))) 3 3 0 = some 0 ∧
    (runMain cfg0 args0 words0 parse0 "pw" "pw" kdf0 draw0 3 false).outBytes =
      Words.decode words0 (.cls ['a', 'b', 'c'] false) 0 ++
        (if false then String.mk ['\n'] else "") :=
  ⟨by decide,
    (C8_output_terminator cfg0 args0 words0 parse0 "pw" "pw" kdf0 draw0 3 false
      (.cls ['a', 'b', 'c'] false) 0 rfl (Or.inl rfl) (by decide)).1⟩

/-- C9: the master secret and salt influence the run only through the key
material — two runs with the same word list, parse result, keystream, fuel
and terminal flag in which key derivation produces identical key material
write identical output, fail identically, and draw the same index. -/
theorem C9_key_material_only (cfg1 cfg2 : Config) (args1 args2 : Args) (ws : Words)
    (parse : String → Option Expr) (mi1 mi2 ci1 ci2 : String)
    (kdf1 kdf2 : String → String → List Nat) (draw : List Nat → Nat → Nat)
    (fuel : Nat) (term : Bool) (expr : Expr)
    (hp1 : parse (runSchema cfg1 args1) = some expr)
    (hp2 : parse (runSchema cfg2 args2) = some expr)
    (hg1 : args1.confirm = false ∨ ci1 = mi1)
    (hg2 : args2.confirm = false ∨ ci2 = mi2)
    (hkey : kdf1 mi1 (runSalt cfg1 args1) = kdf2 mi2 (runSalt cfg2 args2)) :
    (runMain cfg1 args1 ws parse mi1 ci1 kdf1 draw fuel term).outBytes =
      (runMain cfg2 args2 ws parse mi2 ci2 kdf2 draw fuel term).outBytes ∧
    (runMain cfg1 args1 ws parse mi1 ci1 kdf1 draw fuel term).err =
      (runMain cfg2 args2 ws parse mi2 ci2 kdf2 draw fuel term).err ∧
    (∀ i, Ev.drawIndex i ∈ (runMain cfg1 args1 ws parse mi1 ci1 kdf1 draw fuel term).events ↔
      Ev.drawIndex i ∈ (runMain cfg2 args2 ws parse mi2 ci2 kdf2 draw fuel term).events) := by
  rw [runMain_gate cfg1 args1 ws parse mi1 ci1 kdf1 draw fuel term expr hp1 hg1,
    runMain_gate cfg2 args2 ws parse mi2 ci2 kdf2 draw fuel term expr hp2 hg2, hkey]
  refine ⟨rfl, rfl, fun i => ?_⟩
  have h1 := drawIndex_not_gate args1 (ws.size expr) i
  have h2 := drawIndex_not_gate args2 (ws.size expr) i
  simp only [RunResult.mk.injEq]  -- no-op guard
  constructor
  · intro hmem
    rcases List.mem_append.mp hmem with h | h
    · rcases List.mem_append.mp h with h' | h'
      · exact absurd h' h1
      · simp at h'
    · exact List.mem_append.mpr (Or.inr h)
  · intro hmem
    rcases List.mem_append.mp hmem with h | h
    · rcases List.mem_append.mp h with h' | h'
      · exact absurd h' h2
      · simp at h'
    · exact List.mem_append.mpr (Or.inr h)

/-- C9 witness: two concrete runs for different sites and different master
secrets whose (constant) key-derivation outputs coincide write the same
password. -/
theorem C9_key_material_only_witness :
    kdf0 "pw" (runSalt cfg0 args0) = kdf1 "secret2" (runSalt cfg0 argsOther) ∧
    (runMain cfg0 args0 words0 parse0 "pw" "pw" kdf0 draw0 3 false).outBytes =
      (runMain cfg0 argsOther words0 parse0 "secret2" "secret2" kdf1 draw0 3 false).outBytes :=
  ⟨rfl,
    (C9_key_material_only cfg0 cfg0 args0 argsOther words0 parse0 "pw" "secret2" "pw" "secret2"
      kdf0 kdf1 draw0 3 false (.cls ['a', 'b', 'c'] false) rfl rfl (Or.inl rfl) (Or.inl rfl)
      rfl).1⟩

/-- C10: resolution precedence — a `--schema` argument overrides both the
site entry's schema and the config default and is resolved through the
alias table (verbatim when not an alias); a `--increment` argument
overrides the site entry's increment; with no arguments and no matching
site entry, the config default schema and increment 0 are used. -/
theorem C10_resolution_precedence :
    (∀ (s : String) (al : List (String × String)) (site site' : Option Site) (d d' : String),
      resolveSchema (some s) al site d = resolveSchema (some s) al site' d') ∧
    (∀ (s : String) (al : List (String × String)) (d : String),
      resolveSchema (some s) al none d = (al.lookup s).getD s) ∧
    (∀ (i : Nat) (site : Option Site), resolveIncrement (some i) site = i) ∧
    (∀ (al : List (String × String)) (d : String), resolveSchema none al none d = d) ∧
    (∀ (st : Site) (al : List (String × String)) (d : String),
      resolveSchema none al (some st) d = st.schema) ∧
    (∀ st : Site, resolveIncrement none (some st) = st.increment) ∧
    resolveIncrement none none = 0 :=
  ⟨fun _ _ _ _ _ _ => rfl, fun _ _ _ => rfl, fun _ _ => rfl,
    fun _ _ => rfl, fun _ _ _ => rfl, fun _ => rfl, rfl⟩

end Passgen
